import Mathlib

/-!
Verification of the Poe2-Wiki-MCP server's core string-processing logic.

The source (src/index.ts and its variant files) is a TypeScript MCP server
exposing wiki-lookup tools.  Its core logic is pure string manipulation:
the `{{Item}}` template parser inside `fetchGemData`, the recommended-support
extractor `fetchCompatibleSupports`, the `cleanStats` markup-cleaning pipeline
of the `get_gem_info` tool, and the tool-level result cache.

JavaScript strings are embedded as `List Char`; every JS string operation the
source uses (`split`, `join`, `trim`, `indexOf`, `replace`, `replaceAll`,
`toLowerCase`, `startsWith`, `includes`, `substring`, regex replacement and
`matchAll` for the three concrete regexes of the source) is given an explicit
executable model below, faithful to ECMAScript semantics on the source's
patterns.  Network effects are modelled by an explicit outcome type
(`FetchOutcome`): the body of each fetch function is a pure function of the
decoded response, and a thrown error is an `Except.error` that the
`try/catch` boundary of the source converts to `null` / `[]`.
-/

/-- JavaScript strings, embedded as lists of characters. -/
abbrev Str := List Char

/-- Characters removed by JavaScript `String.prototype.trim`:
ECMAScript WhiteSpace (TAB, VT, FF, SP, NBSP, ZWNBSP, Zs) and
LineTerminator (LF, CR, LS, PS). -/
def isJsWhite (c : Char) : Bool :=
  let n := c.toNat
  n == 9 || n == 10 || n == 11 || n == 12 || n == 13 || n == 32 ||
  n == 160 || n == 0x1680 || (0x2000 ≤ n && n ≤ 0x200A) ||
  n == 0x2028 || n == 0x2029 || n == 0x202F || n == 0x205F ||
  n == 0x3000 || n == 0xFEFF

/-- JS `s.trim()`. -/
def trimL (l : Str) : Str :=
  ((l.dropWhile isJsWhite).reverse.dropWhile isJsWhite).reverse

/-- ECMAScript LineTerminator characters (the characters `.` does not match
in a regex without the `s` flag): LF, CR, LS, PS. -/
def isLineTerm (c : Char) : Bool :=
  let n := c.toNat
  n == 10 || n == 13 || n == 0x2028 || n == 0x2029

/-- JS `s.startsWith(p)` (here: `p` is the first argument). -/
def isPrefixL : Str → Str → Bool
  | [], _ => true
  | _ :: _, [] => false
  | a :: as, b :: bs => a == b && isPrefixL (as) (bs)

/-- JS `s.indexOf(needle)`: index of the first occurrence, `none` for -1. -/
def indexOfL (needle : Str) : Str → Option Nat
  | [] => if isPrefixL needle [] then some 0 else none
  | c :: r =>
    if isPrefixL needle (c :: r) then some 0
    else (indexOfL needle r).map (· + 1)

/-- JS `s.includes(needle)`. -/
def containsSub (needle hay : Str) : Bool :=
  (indexOfL needle hay).isSome

/-- JS `String.prototype.toLowerCase` restricted to its ASCII action
(the source's inputs and markers are ASCII). -/
def asciiLower (c : Char) : Char :=
  if 65 ≤ c.toNat && c.toNat ≤ 90 then Char.ofNat (c.toNat + 32) else c

/-- JS `s.toLowerCase()`. -/
def lowerL (l : Str) : Str := l.map asciiLower

/-- JS `s.split(sep)` for a one-character separator. -/
def splitOnC (sep : Char) : Str → List Str
  | [] => [[]]
  | c :: r =>
    if c = sep then [] :: splitOnC sep r
    else
      match splitOnC sep r with
      | [] => [[c]]
      | h :: t => (c :: h) :: t

/-- JS `parts.join(sep)` for a one-character separator. -/
def joinC (sep : Char) : List Str → Str
  | [] => []
  | [x] => x
  | x :: y :: xs => x ++ sep :: joinC sep (y :: xs)

/-- JS `s.replace(sep, "")` for a one-character search string: removes the
first occurrence only. -/
def removeFirstC (sep : Char) : Str → Str
  | [] => []
  | c :: r => if c = sep then r else c :: removeFirstC sep r

/-- JS `s.includes(sep)` for a single character. -/
def containsC (sep : Char) (l : Str) : Bool := l.any (fun c => c == sep)

/-- Everything after the first occurrence of `sep` (empty if absent):
the untruncated remainder that claim C5 talks about. -/
def afterFirstC (sep : Char) (l : Str) : Str :=
  (l.dropWhile (fun c => c != sep)).tail

/-! ## The `{{Item}}` template parser (`fetchGemData`'s parsing stage)

Source: src/index.ts lines 137-168 (variant 1, `parts[0].replace("|", "")`)
and src/unnamed/part_002 lines 161-197 (variant 2,
`parts[0].replaceAll("|", "")`).  Records are JS objects: string-keyed,
insertion-ordered, overwrite-on-repeat — modelled as association lists with
in-place update. -/

/-- JS object field read `obj[k]`. -/
def lookupA {α : Type} : List (Str × α) → Str → Option α
  | [], _ => none
  | (k, v) :: rest, key => if k = key then some v else lookupA rest key

/-- JS object field write `obj[k] = v`: overwrite in place, else append. -/
def updA : List (Str × Str) → Str → Str → List (Str × Str)
  | [], key, v => [(key, v)]
  | (k, w) :: rest, key, v =>
    if k = key then (k, v) :: rest else (k, w) :: updA rest key v

/-- JS `obj[k] += suffix` for a key already present (keys absent are left
alone; the source only appends to the current key, which is present). -/
def appA : List (Str × Str) → Str → Str → List (Str × Str)
  | [], _, _ => []
  | (k, w) :: rest, key, suffix =>
    if k = key then (k, w ++ suffix) :: rest else (k, w) :: appA rest key suffix

/-- State of the line loop: the accumulated record and `currentKey`. -/
structure PState where
  result : List (Str × Str)
  currentKey : Str
deriving DecidableEq

/-- Key extraction of src/index.ts line 153:
`parts[0].replace("|", "").trim()` — first `|` removed, then trimmed. -/
def keyV1 (p : Str) : Str := trimL (removeFirstC '|' p)

/-- Key extraction of src/unnamed/part_002 line 182:
`parts[0].replaceAll("|", "").trim()` — every `|` removed, then trimmed. -/
def keyV2 (p : Str) : Str := trimL (p.filter (fun c => c != '|'))

/-- One iteration of the `for (const line of lines)` body (the `}}` break is
handled by `parseLinesGo`), parameterized by the key extraction `kf` of the
variant.  Source: src/index.ts lines 150-165 / part_002 lines 178-194. -/
def stepP (kf : Str → Str) (st : PState) (line : Str) : PState :=
  if containsC '=' line then
    let parts := splitOnC '=' line
    let keyPart := kf parts.headI
    let valuePart := trimL (joinC '=' parts.tail)
    if keyPart = [] then st
    else { result := updA st.result keyPart valuePart, currentKey := keyPart }
  else if st.currentKey ≠ [] && !(isPrefixL ['|'] (trimL line)) then
    { st with result := appA st.result st.currentKey ('\n' :: trimL line) }
  else st

/-- The closing line of the template block. -/
def closingBB : Str := ['}', '}']

/-- The line loop with its break: `if (line.trim() === "}}") break;`. -/
def parseLinesGo (kf : Str → Str) : List Str → PState → PState
  | [], st => st
  | l :: ls, st =>
    if trimL l = closingBB then st else parseLinesGo kf ls (stepP kf st l)

/-- The template marker `"{{Item"`. -/
def itemMarker : Str := ['{', '{', 'I', 't', 'e', 'm']

/-- The key `"raw"` of the substitute record of variant 1. -/
def rawKey : Str := ['r', 'a', 'w']

/-- Parsing stage of `fetchGemData`, src/index.ts lines 137-168: when the
marker is absent it returns the substitute record
`{ raw: content.substring(0, 1000) }`. -/
def parseTemplateV1 (content : Str) : Option (List (Str × Str)) :=
  match indexOfL itemMarker content with
  | none => some [(rawKey, content.take 1000)]
  | some i =>
    some (parseLinesGo keyV1 (splitOnC '\n' (content.drop i)) ⟨[], []⟩).result

/-- Parsing stage of `fetchGemData`, src/unnamed/part_002 lines 161-197:
when the marker is absent it returns `null`. -/
def parseTemplateV2 (content : Str) : Option (List (Str × Str)) :=
  match indexOfL itemMarker content with
  | none => none
  | some i =>
    some (parseLinesGo keyV2 (splitOnC '\n' (content.drop i)) ⟨[], []⟩).result

/-! ## The recommended-support extractor (`fetchCompatibleSupports`)

Source: src/index.ts lines 196-232 and src/unnamed/part_002 lines 224-264.
The two variants are the same algorithm (an array with an `includes` guard
versus an insertion-ordered `Set`); both deduplicate keeping the first
occurrence.  The inline-reference regex is
`/{{il\|([^}|]+)(?:\|[^}]+)?}}/g`. -/

/-- Characters allowed in the capture group `[^}|]+`. -/
def ilNameChar (c : Char) : Bool := c != '}' && c != '|'

/-- Attempt of the il-regex at one position, given the text directly after
the literal `"{{il|"`.  Backtracking of the ECMAScript engine on this
pattern resolves to: take the maximal nonempty run of `[^}|]` as the
capture; then either `}}` follows directly, or `|` followed by a maximal
nonempty run of `[^}]` and then `}}`.  Returns the capture and the rest of
the input after the match. -/
def ilMatchAt (s : Str) : Option (Str × Str) :=
  if (s.takeWhile ilNameChar).isEmpty then none
  else
    match s.drop (s.takeWhile ilNameChar).length with
    | '}' :: '}' :: rest => some (s.takeWhile ilNameChar, rest)
    | '|' :: v =>
      if (v.takeWhile (fun c => c != '}')).isEmpty then none
      else
        match v.drop (v.takeWhile (fun c => c != '}')).length with
        | '}' :: '}' :: rest => some (s.takeWhile ilNameChar, rest)
        | _ => none
    | _ => none

/-- The literal `"{{il|"`. -/
def ilOpen : Str := ['{', '{', 'i', 'l', '|']

/-- Fueled scanner for `line.matchAll(/{{il\|([^}|]+)(?:\|[^}]+)?}}/g)`:
on a failed attempt the engine advances one position; on a match it
continues after the match.  Each step consumes at least one character, so
fuel `l.length` (supplied by `ilScan`) never runs out early. -/
def ilScanF : Nat → Str → List Str
  | _, [] => []
  | 0, _ => []
  | f + 1, c :: r =>
    if isPrefixL ilOpen (c :: r) then
      match ilMatchAt (r.drop 4) with
      | some (x, rest) => x :: ilScanF f rest
      | none => ilScanF f r
    else ilScanF f r

/-- All captures of the il-regex over a line, in order. -/
def ilScan (l : Str) : List Str := ilScanF l.length l

/-- The list-returning structure produced for each support gem:
`{ name, description: "Recommended Support Gem" }`. -/
structure SupportRef where
  name : Str
  description : Str
deriving DecidableEq

/-- The constant description `"Recommended Support Gem"`. -/
def rsgDesc : Str := "Recommended Support Gem".data

/-- The section marker `"{{recommended support gems"` (lower-case, as the
source compares against the lower-cased content). -/
def tmplMarker : Str :=
  ['{', '{'] ++ "recommended support gems".data

/-- The section marker `"==recommended support gems=="`. -/
def headMarker : Str := "==recommended support gems==".data

/-- The keyword `"recommended"` of the section-break guard. -/
def recWord : Str := "recommended".data

/-- `"=="`, the major-heading test of the section-break guard. -/
def eqeq : Str := ['=', '=']

/-- The section-break guard of the line loop:
`line.trim().startsWith("==") && !line.toLowerCase().includes("recommended")`. -/
def lineEndsSection (l : Str) : Bool :=
  isPrefixL eqeq (trimL l) && !(containsSub recWord (lowerL l))

/-- `gems.includes(name) ? gems : gems ++ [name]` — the deduplicating insert
(an insertion-ordered JS `Set.add` behaves identically). -/
def insertNew (a : List Str) (n : Str) : List Str :=
  if a.contains n then a else a ++ [n]

/-- Adding one line's captures: `const name = match[1].trim();
if (name) gemsSet.add(name);`. -/
def addNames (a : List Str) (xs : List Str) : List Str :=
  xs.foldl (fun a x => if trimL x = [] then a else insertNew a (trimL x)) a

/-- The extractor's line loop: break on an unrelated major section before
extracting, extract the line's references, then break on the closing `}}`.
Source: part_002 lines 238-258 / index.ts lines 208-227. -/
def collectGems : List Str → List Str → List Str
  | [], acc => acc
  | l :: ls, acc =>
    if lineEndsSection l then acc
    else
      if trimL l = closingBB then addNames acc (ilScan l)
      else collectGems ls (addNames acc (ilScan l))

/-- Start-of-scan computation of the source (index.ts lines 198-201 /
part_002 lines 226-229): the template-style marker's first occurrence,
and only if absent, the heading-style marker's first occurrence, both on
the lower-cased content. -/
def codeStartIdx (content : Str) : Option Nat :=
  match indexOfL tmplMarker (lowerL content) with
  | some i => some i
  | none => indexOfL headMarker (lowerL content)

/-- `fetchCompatibleSupports`' extraction stage, operating on the raw page
markup (part_002 lines 226-264 / index.ts lines 198-232). -/
def extractSupports (content : Str) : List SupportRef :=
  match codeStartIdx content with
  | none => []
  | some i =>
    (collectGems (splitOnC '\n' (content.drop i)) []).map
      (fun n => { name := n, description := rsgDesc })

/-! ## The markup cleaner (`cleanStats` of the `get_gem_info` tool)

Source: src/index.ts lines 38-42 — four chained `String.replace` calls with
global regexes:
1. `/{{c\|.*?\|(.*?)}}/g` replaced by `$1`,
2. `/\[\[(?:[^|\]]*\|)?([^\]]+)\]\]/g` replaced by `$1`,
3. `/<.*?>/g` removed,
4. `/&nbsp;/g` replaced by a space.
Each matcher below returns the replacement text and the rest of the input
after the match. -/

/-- Scan to the first `|`, failing on a LineTerminator (the lazy `.*?\|`):
returns the rest after the `|`. -/
def findPipe : Str → Option Str
  | [] => none
  | '|' :: r => some r
  | c :: r => if isLineTerm c then none else findPipe r

/-- Scan to the first `}}`, failing on a LineTerminator (the lazy
`(.*?)}}`): returns the capture and the rest after the `}}`. -/
def findBB : Str → Option (Str × Str)
  | '}' :: '}' :: r => some ([], r)
  | c :: r =>
    if isLineTerm c then none
    else (findBB r).map (fun p => (c :: p.1, p.2))
  | [] => none

/-- The literal `"{{c|"`. -/
def colorOpen : Str := ['{', '{', 'c', '|']

/-- Regex 1, `{{c\|.*?\|(.*?)}}` at one position.  Lazy quantifiers resolve
to: first `|` after `"{{c|"`, then first `}}` after it, all on one line
(the engine's backtracking to a later `|` cannot succeed when no `}}`
follows the first one before the line ends). -/
def matchColor (s : Str) : Option (Str × Str) :=
  if isPrefixL colorOpen s then
    match findPipe (s.drop 4) with
    | none => none
    | some v => findBB v
  else none

/-- Regex 2 without its optional `[^|\]]*\|` prefix group: greedy `[^\]]+`
then `]]`. -/
def linkNoPrefix (u : Str) : Option (Str × Str) :=
  let cap := u.takeWhile (fun c => c != ']')
  if cap.isEmpty then none
  else
    match u.drop cap.length with
    | ']' :: ']' :: rest => some (cap, rest)
    | _ => none

/-- Regex 2, `\[\[(?:[^|\]]*\|)?([^\]]+)\]\]` at one position.  The greedy
optional group matches exactly when a `|` ends the maximal `[^|\]]*` run;
if the remainder then fails, the engine retries without the group. -/
def matchLink (s : Str) : Option (Str × Str) :=
  if isPrefixL ['[', '['] s then
    let u := s.drop 2
    match u.drop (u.takeWhile (fun c => c != '|' && c != ']')).length with
    | '|' :: v =>
      let cap := v.takeWhile (fun c => c != ']')
      if cap.isEmpty then linkNoPrefix u
      else
        match v.drop cap.length with
        | ']' :: ']' :: rest => some (cap, rest)
        | _ => linkNoPrefix u
    | _ => linkNoPrefix u
  else none

/-- Scan to the first `>`, failing on a LineTerminator (the lazy `.*?>`). -/
def findGt : Str → Option Str
  | [] => none
  | '>' :: r => some r
  | c :: r => if isLineTerm c then none else findGt r

/-- Regex 3, `<.*?>` at one position; the whole match is removed. -/
def matchTag (s : Str) : Option (Str × Str) :=
  match s with
  | '<' :: r => (findGt r).map (fun rest => ([], rest))
  | _ => none

/-- The literal `"&nbsp;"`. -/
def nbspLit : Str := "&nbsp;".data

/-- Regex 4, the literal `&nbsp;`, replaced by one space. -/
def matchNbsp (s : Str) : Option (Str × Str) :=
  if isPrefixL nbspLit s then some ([' '], s.drop 6) else none

/-- Global replacement: at each position try the matcher; on a match emit
the replacement and continue after the match, otherwise keep the character
and advance one.  Every matcher above consumes at least one character, so
fuel equal to the input length never runs out early. -/
def runRep (m : Str → Option (Str × Str)) : Nat → Str → Str
  | _, [] => []
  | 0, s => s
  | f + 1, c :: r =>
    match m (c :: r) with
    | some (rep, rest) => rep ++ runRep m f rest
    | none => c :: runRep m f r

/-- Stage 1: `.replace(/{{c\|.*?\|(.*?)}}/g, "$1")`. -/
def replaceColor (s : Str) : Str := runRep matchColor s.length s

/-- Stage 2: `.replace(/\[\[(?:[^|\]]*\|)?([^\]]+)\]\]/g, "$1")`. -/
def replaceLinks (s : Str) : Str := runRep matchLink s.length s

/-- Stage 3: `.replace(/<.*?>/g, "")`. -/
def replaceTags (s : Str) : Str := runRep matchTag s.length s

/-- Stage 4: `.replace(/&nbsp;/g, " ")`. -/
def replaceNbsp (s : Str) : Str := runRep matchNbsp s.length s

/-- The full cleaning pipeline of src/index.ts lines 38-42, in the source's
fixed order. -/
def cleanStats (s : Str) : Str :=
  replaceNbsp (replaceTags (replaceLinks (replaceColor s)))

/-- `true` when the matcher matches at some position of `s`. -/
def hasMatchIn (m : Str → Option (Str × Str)) : Str → Bool
  | [] => (m []).isSome
  | c :: r => (m (c :: r)).isSome || hasMatchIn m r

/-- No residual instance of any of the four patterns: the well-formedness
condition under which a cleaned string is a fixed point (the "free of
pathological nesting" proviso of the specification). -/
def noResidual (s : Str) : Bool :=
  !(hasMatchIn matchColor s || hasMatchIn matchLink s ||
    hasMatchIn matchTag s || hasMatchIn matchNbsp s)

/-! ## The result cache and the `get_gem_info` tool handler

Source: src/index.ts lines 11-34 (identically src/unnamed/part_000 lines
11-34 and part_001 lines 17-45).  `const cache = new Map<string, { data;
timestamp }>()` with the lookup guard
`cached && Date.now() - cached.timestamp < 3600000`.  The handler's text
rendering (summary formatting via `cleanStats`) is irrelevant to the cache
claim and is elided: the response constructors carry the record that the
corresponding branch serializes. -/

/-- One cache entry: `{ data, timestamp }`. -/
structure CacheEntry where
  data : List (Str × Str)
  timestamp : Nat
deriving DecidableEq

/-- The cache: a `Map` keyed by the gem name exactly as supplied. -/
abbrev Cache := List (Str × CacheEntry)

/-- The TTL: 3600000 ms (1 hour). -/
def ttlMs : Nat := 3600000

/-- The three response shapes of the handler: a cache hit (serialized cached
data), the not-found message, or the freshly built summary of the fetched
record. -/
inductive GemResponse where
  | cachedJson (data : List (Str × Str))
  | notFound (gemName : Str)
  | summary (data : List (Str × Str))
deriving DecidableEq

/-- The `get_gem_info` handler, src/index.ts lines 22-70: fetches first
(`fetched` is the already-awaited `fetchGemData` result), then consults the
cache, then branches.  The returned cache is the cache after the call; the
source contains no `cache.set`, so every branch returns it unchanged. -/
def getGemInfoTool (cache : Cache) (now : Nat) (gemName : Str)
    (fetched : Option (List (Str × Str))) : GemResponse × Cache :=
  match lookupA cache gemName with
  | some cached =>
    if now - cached.timestamp < ttlMs then (.cachedJson cached.data, cache)
    else
      match fetched with
      | none => (.notFound gemName, cache)
      | some data => (.summary data, cache)
  | none =>
    match fetched with
    | none => (.notFound gemName, cache)
    | some data => (.summary data, cache)

/-! ## The fetch boundary (`fetchWikiPageContent` and the catch blocks)

Source: src/unnamed/part_002 lines 112-144 (`fetchWikiPageContent`),
153-202 (`fetchGemData`) and 218-269 (`fetchCompatibleSupports`).
A `FetchOutcome` is the observable result of `fetch` + `response.json()`:
either some stage threw (network rejection, the `!response.ok` throw of
line 127, or a JSON decoding error), or a decoded response, whose optional
`query.pages` object is a keyed list of pages. -/

/-- One revision: `revisions[i].slots?.main?.["*"]` may be missing. -/
structure WRevision where
  content : Option Str
deriving DecidableEq

/-- One page of the response: its (possibly empty) revision list. -/
structure WPage where
  revisions : List WRevision
deriving DecidableEq

/-- Result of the network/decoding stage. -/
inductive FetchOutcome where
  | thrown (msg : Str)
  | decoded (pages : Option (List (Str × WPage)))
deriving DecidableEq

/-- The page id `"-1"` that MediaWiki uses for a missing title. -/
def missingPageId : Str := ['-', '1']

/-- `fetchWikiPageContent`, part_002 lines 112-144.  `.error` is a thrown
exception escaping this helper (to be caught by its callers): the
`!response.ok` / network / JSON throw, and the `TypeError` raised on an
empty `pages` object (`Object.keys(pages)[0]` is `undefined`, so
`pages[pageId]` is `undefined` and reading `.revisions` on line 140
throws).  `content || null` turns an empty string into `null`. -/
def fetchWikiPageContent (o : FetchOutcome) : Except Str (Option Str) :=
  match o with
  | .thrown msg => .error msg
  | .decoded none => .ok none
  | .decoded (some []) => .error "TypeError".data
  | .decoded (some ((pid, page) :: _)) =>
    if pid = missingPageId then .ok none
    else
      match page.revisions with
      | [] => .ok none
      | rev :: _ =>
        match rev.content with
        | none => .ok none
        | some c => .ok (if c = [] then none else some c)

/-- `fetchGemData`, part_002 lines 153-202: the `catch` converts any thrown
error to `null`; a missing page or missing `{{Item` template is also
`null`; otherwise the parsed record. -/
def fetchGemData (o : FetchOutcome) : Option (List (Str × Str)) :=
  match fetchWikiPageContent o with
  | .error _ => none
  | .ok none => none
  | .ok (some content) => parseTemplateV2 content

/-- `fetchCompatibleSupports`, part_002 lines 218-269: the `catch` converts
any thrown error to `[]`; a missing page is `[]`; otherwise the extracted
support list. -/
def fetchCompatibleSupports (o : FetchOutcome) : List SupportRef :=
  match fetchWikiPageContent o with
  | .error _ => []
  | .ok none => []
  | .ok (some content) => extractSupports content

/-! ## Specification-side definitions

These follow the specification's words (not the source) and exist to be
compared with the source-derived definitions above. -/

/-- Modelled from the spec: "the earliest occurrence of any recognized
section marker (case-insensitive)" — the minimum of the two markers'
first occurrences. -/
def earliestStart (content : Str) : Option Nat :=
  match indexOfL tmplMarker (lowerL content),
        indexOfL headMarker (lowerL content) with
  | some i, some j => some (min i j)
  | some i, none => some i
  | none, some j => some j
  | none, none => none

/-- The raw (not deduplicated) stream of trimmed nonempty captures of one
line, in order of appearance. -/
def lineNames (l : Str) : List Str :=
  ((ilScan l).map trimL).filter (fun n => !n.isEmpty)

/-- The raw capture stream over the extractor's line window (same break
conditions as `collectGems`, no deduplication). -/
def rawGems : List Str → List Str
  | [] => []
  | l :: ls =>
    if lineEndsSection l then []
    else lineNames l ++ (if trimL l = closingBB then [] else rawGems ls)

/-- Order-preserving deduplication keeping the first occurrence. -/
def dedupFirst (ns : List Str) : List Str := ns.foldl insertNew []

/-- The raw capture stream of a whole page, starting where the source
starts its scan. -/
def rawSupportNames (content : Str) : List Str :=
  match codeStartIdx content with
  | none => []
  | some i => rawGems (splitOnC '\n' (content.drop i))

/-! ## Lemmas: trimming -/

theorem dropWhile_head_false {α : Type} {p : α → Bool} :
    ∀ {l : List α} {a t}, l.dropWhile p = a :: t → p a = false := by
  intro l
  induction l with
  | nil => intro a t h; simp at h
  | cons c r ih =>
    intro a t h
    rw [List.dropWhile_cons] at h
    split at h
    · exact ih h
    · injection h with h1 _
      subst h1
      simp_all

theorem dropWhile_idem {α : Type} (p : α → Bool) (l : List α) :
    (l.dropWhile p).dropWhile p = l.dropWhile p := by
  cases h : l.dropWhile p with
  | nil => rfl
  | cons a t =>
    have hpa := dropWhile_head_false h
    simp [List.dropWhile_cons, hpa]

theorem trimL_idem (l : Str) : trimL (trimL l) = trimL l := by
  unfold trimL
  generalize hA : l.dropWhile isJsWhite = A
  generalize hD : A.reverse.dropWhile isJsWhite = D
  have h1 : D.reverse.dropWhile isJsWhite = D.reverse := by
    cases hDr : D.reverse with
    | nil => rfl
    | cons a t =>
      have hAeq : ∃ u, A = a :: u := by
        have h2 : A.reverse.takeWhile isJsWhite ++ D = A.reverse := by
          rw [← hD]
          exact List.takeWhile_append_dropWhile _ _
        have h3 : A = D.reverse ++ (A.reverse.takeWhile isJsWhite).reverse := by
          have h4 := congrArg List.reverse h2
          simpa [List.reverse_append] using h4.symm
        refine ⟨t ++ (A.reverse.takeWhile isJsWhite).reverse, ?_⟩
        conv_lhs => rw [h3, hDr]
        rfl
      have hpa : isJsWhite a = false := by
        obtain ⟨u, hu⟩ := hAeq
        apply dropWhile_head_false (p := isJsWhite) (l := l)
        rw [hA]
        exact hu
      simp [List.dropWhile_cons, hpa]
  rw [h1, List.reverse_reverse, ← hD, dropWhile_idem]

theorem mem_trimL {c : Char} {l : Str} (h : c ∈ trimL l) : c ∈ l := by
  unfold trimL at h
  rw [List.mem_reverse] at h
  have h2 : c ∈ (l.dropWhile isJsWhite).reverse :=
    List.Sublist.mem h (List.dropWhile_sublist _)
  rw [List.mem_reverse] at h2
  exact List.Sublist.mem h2 (List.dropWhile_sublist _)

/-! ## Lemmas: splitting and joining on a separator -/

theorem splitOnC_ne_nil (sep : Char) (l : Str) : splitOnC sep l ≠ [] := by
  induction l with
  | nil => simp [splitOnC]
  | cons c r ih =>
    rw [splitOnC]
    split
    · simp
    · cases h : splitOnC sep r with
      | nil => simp
      | cons h t => simp

theorem joinC_splitOnC (sep : Char) (l : Str) :
    joinC sep (splitOnC sep l) = l := by
  induction l with
  | nil => rfl
  | cons c r ih =>
    rw [splitOnC]
    split
    · rename_i hc
      cases h : splitOnC sep r with
      | nil => exact absurd h (splitOnC_ne_nil sep r)
      | cons x xs =>
        rw [h] at ih
        subst hc
        simpa [joinC] using ih
    · cases h : splitOnC sep r with
      | nil => exact absurd h (splitOnC_ne_nil sep r)
      | cons x xs =>
        rw [h] at ih
        cases xs with
        | nil => simpa [joinC] using ih
        | cons y ys => simpa [joinC] using ih

theorem splitOnC_head_not_mem (sep : Char) (l : Str) :
    sep ∉ (splitOnC sep l).headI := by
  induction l with
  | nil => simp [splitOnC]
  | cons c r ih =>
    rw [splitOnC]
    split
    · simp
    · rename_i hc
      cases h : splitOnC sep r with
      | nil => exact absurd h (splitOnC_ne_nil sep r)
      | cons x xs =>
        rw [h] at ih
        simp only [List.headI] at ih ⊢
        intro hmem
        rcases List.mem_cons.mp hmem with h1 | h1
        · exact hc h1.symm
        · exact ih h1

theorem splitOnC_tail_ne_nil {sep : Char} {l : Str} (h : sep ∈ l) :
    (splitOnC sep l).tail ≠ [] := by
  induction l with
  | nil => simp at h
  | cons c r ih =>
    rw [splitOnC]
    split
    · simp [splitOnC_ne_nil]
    · rename_i hc
      have hr : sep ∈ r := by
        rcases List.mem_cons.mp h with h1 | h1
        · exact absurd h1.symm hc
        · exact h1
      cases hsp : splitOnC sep r with
      | nil => exact absurd hsp (splitOnC_ne_nil sep r)
      | cons x xs =>
        rw [hsp] at ih
        have := ih hr
        simpa using this

theorem mem_splitOnC_not_sep (sep : Char) :
    ∀ {l p : Str}, p ∈ splitOnC sep l → sep ∉ p := by
  intro l
  induction l with
  | nil => intro p hp; simp [splitOnC] at hp; simp [hp]
  | cons c r ih =>
    intro p hp
    rw [splitOnC] at hp
    split at hp
    · rcases List.mem_cons.mp hp with h1 | h1
      · simp [h1]
      · exact ih h1
    · rename_i hc
      cases hsp : splitOnC sep r with
      | nil => exact absurd hsp (splitOnC_ne_nil sep r)
      | cons x xs =>
        rw [hsp] at hp
        rcases List.mem_cons.mp hp with h1 | h1
        · subst h1
          intro hmem
          rcases List.mem_cons.mp hmem with h2 | h2
          · exact hc h2.symm
          · exact ih (hsp ▸ List.mem_cons_self x xs) h2
        · exact ih (hsp ▸ List.mem_cons.mpr (Or.inr h1))

theorem splitOnC_decomp {sep : Char} {l : Str} (h : sep ∈ l) :
    l = (splitOnC sep l).headI ++ sep :: joinC sep (splitOnC sep l).tail := by
  cases hsp : splitOnC sep l with
  | nil => exact absurd hsp (splitOnC_ne_nil sep l)
  | cons x xs =>
    cases xs with
    | nil =>
      have := splitOnC_tail_ne_nil h
      rw [hsp] at this
      simp at this
    | cons y ys =>
      have hj := joinC_splitOnC sep l
      rw [hsp] at hj
      simpa [joinC] using hj.symm

theorem afterFirstC_append {sep : Char} {h rest : Str} (hs : sep ∉ h) :
    afterFirstC sep (h ++ sep :: rest) = rest := by
  unfold afterFirstC
  induction h with
  | nil => simp
  | cons c cs ih =>
    have hc : c ≠ sep := fun e => hs (e ▸ List.mem_cons_self c cs)
    have hcs : sep ∉ cs := fun m => hs (List.mem_cons.mpr (Or.inr m))
    simp only [List.cons_append, List.dropWhile_cons]
    rw [if_pos (by simp [hc])]
    exact ih hcs

theorem afterFirstC_eq_join {sep : Char} {l : Str} (h : sep ∈ l) :
    afterFirstC sep l = joinC sep (splitOnC sep l).tail := by
  conv_lhs => rw [splitOnC_decomp h]
  exact afterFirstC_append (splitOnC_head_not_mem sep l)

/-! ## Lemmas: global replacement and the cleaning pipeline -/

theorem runRep_eq_self {m : Str → Option (Str × Str)} :
    ∀ {s : Str}, hasMatchIn m s = false → ∀ f, runRep m f s = s := by
  intro s
  induction s with
  | nil => intro _ f; cases f <;> rfl
  | cons c r ih =>
    intro h f
    rw [hasMatchIn, Bool.or_eq_false_iff] at h
    have hm : m (c :: r) = none := by
      cases hmc : m (c :: r) with
      | none => rfl
      | some p => rw [hmc] at h; simp at h
    cases f with
    | zero => rfl
    | succ f => rw [runRep, hm]; rw [ih h.2 f]

/-! ## Lemmas: the parser's line loop and record operations -/

theorem parseLinesGo_foldl (kf : Str → Str) :
    ∀ (lines : List Str) (st : PState),
      parseLinesGo kf lines st =
        List.foldl (stepP kf) st
          (lines.takeWhile (fun l => !(trimL l == closingBB))) := by
  intro lines
  induction lines with
  | nil => intro st; rfl
  | cons l ls ih =>
    intro st
    rw [parseLinesGo, List.takeWhile_cons]
    by_cases h : trimL l = closingBB
    · simp [h]
    · rw [if_neg h]
      have : (!(trimL l == closingBB)) = true := by simp [h]
      rw [this]
      simp only [List.foldl_cons]
      exact ih (stepP kf st l)

theorem lookupA_updA (m : List (Str × Str)) (k v : Str) :
    lookupA (updA m k v) k = some v := by
  induction m with
  | nil => simp [updA, lookupA]
  | cons p rest ih =>
    obtain ⟨k', w⟩ := p
    rw [updA]
    by_cases h : k' = k
    · simp [lookupA, h]
    · rw [if_neg h, lookupA, if_neg h]
      exact ih

theorem removeFirstC_eq_filter {sep : Char} :
    ∀ {l : Str}, l.count sep ≤ 1 →
      removeFirstC sep l = l.filter (fun c => c != sep) := by
  intro l
  induction l with
  | nil => intro _; rfl
  | cons c r ih =>
    intro h
    rw [removeFirstC]
    by_cases hc : c = sep
    · subst hc
      rw [if_pos rfl]
      have hcount : r.count c = 0 := by
        rw [List.count_cons] at h
        simp at h
        omega
      have hnot : c ∉ r := List.count_eq_zero.mp hcount
      have hfr : r.filter (fun x => x != c) = r := by
        rw [List.filter_eq_self]
        intro a ha
        simp [ne_eq]
        exact fun e => hnot (e ▸ ha)
      simp [hfr]
    · rw [if_neg hc]
      have hcount : r.count sep ≤ 1 := by
        rw [List.count_cons] at h
        split at h <;> omega
      rw [ih hcount]
      simp [List.filter_cons, hc]

/-! ## Lemmas: the recommended-support extractor -/

theorem addNames_eq :
    ∀ (xs : List Str) (a : List Str),
      addNames a xs =
        (((xs.map trimL).filter (fun n => !n.isEmpty)).foldl insertNew a) := by
  intro xs
  induction xs with
  | nil => intro a; rfl
  | cons x xs ih =>
    intro a
    have h0 : addNames a (x :: xs) =
        addNames (if trimL x = [] then a else insertNew a (trimL x)) xs := rfl
    by_cases h : trimL x = []
    · rw [h0, if_pos h, ih]
      have he : (!(trimL x).isEmpty) = false := by simp [h]
      simp only [List.map_cons, List.filter_cons, he]
      simp
    · rw [h0, if_neg h, ih]
      have he : (!(trimL x).isEmpty) = true := by
        simp [List.isEmpty_iff, h]
      simp only [List.map_cons, List.filter_cons, he]
      simp

theorem collectGems_foldl :
    ∀ (lines : List Str) (acc : List Str),
      collectGems lines acc = (rawGems lines).foldl insertNew acc := by
  intro lines
  induction lines with
  | nil => intro acc; rfl
  | cons l ls ih =>
    intro acc
    rw [collectGems, rawGems]
    by_cases hb : lineEndsSection l
    · simp [hb]
    · rw [if_neg hb, if_neg hb]
      by_cases hc : trimL l = closingBB
      · rw [if_pos hc, if_pos hc]
        rw [addNames_eq, List.append_nil]
        rfl
      · rw [if_neg hc, if_neg hc, List.foldl_append]
        rw [ih, addNames_eq]
        rfl

theorem insertNew_nodup {a : List Str} {n : Str} (h : a.Nodup) :
    (insertNew a n).Nodup := by
  rw [insertNew]
  by_cases hc : a.contains n = true
  · rw [if_pos hc]
    exact h
  · rw [if_neg hc]
    rw [List.nodup_append]
    refine ⟨h, List.nodup_singleton n, ?_⟩
    intro x hx hx'
    rcases List.mem_singleton.mp hx' with rfl
    exact hc (List.elem_iff.mpr hx)

theorem foldl_insertNew_nodup :
    ∀ (ns : List Str) (a : List Str), a.Nodup → (ns.foldl insertNew a).Nodup := by
  intro ns
  induction ns with
  | nil => intro a h; exact h
  | cons n ns ih =>
    intro a h
    rw [List.foldl_cons]
    exact ih _ (insertNew_nodup h)

theorem mem_foldl_insertNew :
    ∀ (ns : List Str) (a : List Str) (x : Str),
      x ∈ ns.foldl insertNew a → x ∈ a ∨ x ∈ ns := by
  intro ns
  induction ns with
  | nil => intro a x h; exact Or.inl h
  | cons n ns ih =>
    intro a x h
    rw [List.foldl_cons] at h
    rcases ih _ _ h with h1 | h1
    · rw [insertNew] at h1
      split at h1
      · exact Or.inl h1
      · rcases List.mem_append.mp h1 with h2 | h2
        · exact Or.inl h2
        · rcases List.mem_singleton.mp h2 with rfl
          exact Or.inr (List.mem_cons_self _ _)
    · exact Or.inr (List.mem_cons.mpr (Or.inr h1))

theorem mem_rawGems :
    ∀ {lines : List Str} {n : Str}, n ∈ rawGems lines →
      ∃ l ∈ lines, n ∈ lineNames l := by
  intro lines
  induction lines with
  | nil => intro n h; simp [rawGems] at h
  | cons l ls ih =>
    intro n h
    rw [rawGems] at h
    split at h
    · simp at h
    · rcases List.mem_append.mp h with h1 | h1
      · exact ⟨l, List.mem_cons_self _ _, h1⟩
      · split at h1
        · simp at h1
        · obtain ⟨l', hl', hn⟩ := ih h1
          exact ⟨l', List.mem_cons.mpr (Or.inr hl'), hn⟩

theorem mem_lineNames {l n : Str} (h : n ∈ lineNames l) :
    n ≠ [] ∧ ∃ x ∈ ilScan l, n = trimL x := by
  rw [lineNames, List.mem_filter] at h
  obtain ⟨hmem, hne⟩ := h
  constructor
  · intro e
    rw [e] at hne
    simp at hne
  · obtain ⟨x, hx, he⟩ := List.mem_map.mp hmem
    exact ⟨x, hx, he.symm⟩

theorem ilMatchAt_inv {s x rest : Str} (h : ilMatchAt s = some (x, rest)) :
    x = s.takeWhile ilNameChar ∧ x ≠ [] ∧ ∀ ch ∈ rest, ch ∈ s := by
  rw [ilMatchAt] at h
  split at h
  · exact absurd h (by simp)
  · rename_i hne
    have hxne : s.takeWhile ilNameChar ≠ [] := by
      intro e
      rw [e] at hne
      simp at hne
    split at h
    · rename_i rest' heq
      injection h with h1
      injection h1 with hx hr
      subst hx
      subst hr
      refine ⟨rfl, hxne, ?_⟩
      intro ch hch
      have : ch ∈ s.drop (s.takeWhile ilNameChar).length := by
        rw [heq]
        exact List.mem_cons.mpr (Or.inr (List.mem_cons.mpr (Or.inr hch)))
      exact List.mem_of_mem_drop this
    · rename_i v heq
      split at h
      · exact absurd h (by simp)
      · split at h
        · rename_i rest' heq2
          injection h with h1
          injection h1 with hx hr
          subst hx
          subst hr
          refine ⟨rfl, hxne, ?_⟩
          intro ch hch
          have h2 : ch ∈ v.drop (v.takeWhile (fun c => c != '}')).length := by
            rw [heq2]
            exact List.mem_cons.mpr (Or.inr (List.mem_cons.mpr (Or.inr hch)))
          have h3 : ch ∈ v := List.mem_of_mem_drop h2
          have h4 : ch ∈ s.drop (s.takeWhile ilNameChar).length := by
            rw [heq]
            exact List.mem_cons.mpr (Or.inr h3)
          exact List.mem_of_mem_drop h4
        · exact absurd h (by simp)
    · exact absurd h (by simp)

theorem ilScanF_props :
    ∀ (f : Nat) (l : Str) {x : Str}, x ∈ ilScanF f l →
      x ≠ [] ∧ ∀ ch ∈ x, ilNameChar ch = true ∧ ch ∈ l := by
  intro f
  induction f with
  | zero =>
    intro l x h
    cases l <;> simp [ilScanF] at h
  | succ f ih =>
    intro l x h
    cases l with
    | nil => simp [ilScanF] at h
    | cons c r =>
      rw [ilScanF] at h
      by_cases hp : isPrefixL ilOpen (c :: r) = true
      · rw [if_pos hp] at h
        cases hm : ilMatchAt (r.drop 4) with
        | some pr =>
          obtain ⟨x', rest⟩ := pr
          rw [hm] at h
          obtain ⟨hx_eq, hx_ne, hrest_sub⟩ := ilMatchAt_inv hm
          rcases List.mem_cons.mp h with rfl | hmem
          · refine ⟨hx_ne, ?_⟩
            intro ch hch
            rw [hx_eq] at hch
            refine ⟨List.mem_takeWhile_imp hch, ?_⟩
            have h2 : ch ∈ r.drop 4 :=
              List.Sublist.mem hch (List.takeWhile_sublist _)
            exact List.mem_cons.mpr (Or.inr (List.mem_of_mem_drop h2))
          · obtain ⟨hne, hch⟩ := ih rest hmem
            refine ⟨hne, ?_⟩
            intro ch hc2
            obtain ⟨hprop, hmm⟩ := hch ch hc2
            refine ⟨hprop, ?_⟩
            have h2 : ch ∈ r.drop 4 := hrest_sub ch hmm
            exact List.mem_cons.mpr (Or.inr (List.mem_of_mem_drop h2))
        | none =>
          rw [hm] at h
          obtain ⟨hne, hch⟩ := ih r h
          refine ⟨hne, ?_⟩
          intro ch hc2
          obtain ⟨hprop, hmm⟩ := hch ch hc2
          exact ⟨hprop, List.mem_cons.mpr (Or.inr hmm)⟩
      · rw [if_neg hp] at h
        obtain ⟨hne, hch⟩ := ih r h
        refine ⟨hne, ?_⟩
        intro ch hc2
        obtain ⟨hprop, hmm⟩ := hch ch hc2
        exact ⟨hprop, List.mem_cons.mpr (Or.inr hmm)⟩

theorem containsC_true_iff (sep : Char) (l : Str) :
    containsC sep l = true ↔ sep ∈ l := by
  rw [containsC, List.any_eq_true]
  constructor
  · rintro ⟨x, hx, he⟩
    rw [beq_iff_eq] at he
    exact he ▸ hx
  · intro h
    exact ⟨sep, h, beq_self_eq_true sep⟩

theorem stepP_eq_of_key (kf : Str → Str) (st : PState) (line : Str)
    (h1 : containsC '=' line = true)
    (hk : kf (splitOnC '=' line).headI ≠ []) :
    stepP kf st line =
      { result := updA st.result (kf (splitOnC '=' line).headI)
          (trimL (joinC '=' (splitOnC '=' line).tail)),
        currentKey := kf (splitOnC '=' line).headI } := by
  simp only [stepP, h1, if_true]
  rw [if_neg hk]

/-! ## Claim theorems -/

/-- C1: the claim (and the spec's Result Cache contract) requires a
successful `get_gem_info` fetch to populate the cache (a `put`) so that a
later call within the TTL hits.  The source's handler contains no
`cache.set`: every branch returns the cache unchanged, so — starting from
the empty cache — even after a call whose fetch succeeded, a lookup of the
same key still misses.  This theorem evaluates that defect: the first
conjunct shows no invocation ever modifies the cache; the second shows
that after an arbitrary invocation on the empty cache (in particular a
successful fetch, `d = some record`) the key is still absent. -/
theorem get_gem_info_never_puts (cache : Cache) (now : Nat) (g : Str)
    (d : Option (List (Str × Str))) :
    (getGemInfoTool cache now g d).2 = cache ∧
      lookupA ((getGemInfoTool [] now g d).2) g = none := by
  constructor
  · unfold getGemInfoTool
    cases lookupA cache g with
    | none => cases d <;> rfl
    | some e =>
      by_cases hn : now - e.timestamp < ttlMs <;> cases d <;> simp [hn]
  · unfold getGemInfoTool
    cases d <;> rfl

/-- C2 counterexample: on an input without the `"{{Item"` marker, the
index.ts variant of the parsing stage does not return `null`; it returns
the substitute record `{ raw: <first 1000 characters> }`. -/
theorem parse_no_marker_cex :
    parseTemplateV1 "hello".data = some [(rawKey, "hello".data)] ∧
      parseTemplateV1 "hello".data ≠ none := by
  exact ⟨by decide, by decide⟩

/-- C2 (amended): when the template marker `"{{Item"` does not occur in the
raw markup, the part_002 variant of the parsing stage returns `null` (and
never a partial or substitute record), while the index.ts variant instead
returns the single-field substitute record `{ raw: content.substring(0,
1000) }`. -/
theorem parse_no_marker (c : Str) (h : indexOfL itemMarker c = none) :
    parseTemplateV2 c = none ∧
      parseTemplateV1 c = some [(rawKey, c.take 1000)] := by
  unfold parseTemplateV1 parseTemplateV2
  rw [h]
  exact ⟨rfl, rfl⟩

/-- Witness for `parse_no_marker` at the concrete marker-less input
`"no item template here"`. -/
theorem parse_no_marker_w :
    indexOfL itemMarker "no item template here".data = none ∧
      (parseTemplateV2 "no item template here".data = none ∧
        parseTemplateV1 "no item template here".data =
          some [(rawKey, ("no item template here".data).take 1000)]) :=
  ⟨by decide, parse_no_marker "no item template here".data (by decide)⟩

/-- C8: every thrown network/HTTP/JSON failure is caught at the
fetch-function boundary: `fetchGemData` downgrades it to `null` and
`fetchCompatibleSupports` to the empty list; nothing propagates (both
functions are total with these benign result types). -/
theorem fetch_failures_benign (o : FetchOutcome) (e : Str)
    (h : fetchWikiPageContent o = Except.error e) :
    fetchGemData o = none ∧ fetchCompatibleSupports o = [] := by
  unfold fetchGemData fetchCompatibleSupports
  rw [h]
  exact ⟨rfl, rfl⟩

/-- Witness for `fetch_failures_benign` at a concrete thrown network
error. -/
theorem fetch_failures_benign_w :
    fetchWikiPageContent (FetchOutcome.thrown "network error".data) =
        Except.error "network error".data ∧
      (fetchGemData (FetchOutcome.thrown "network error".data) = none ∧
        fetchCompatibleSupports (FetchOutcome.thrown "network error".data) = []) :=
  ⟨rfl, fetch_failures_benign _ _ rfl⟩

/-- C3 counterexample: for the template line `"a|b=v"` the claim predicts
the stored key `"a|b"` (no leading field-prefix to strip, the interior
pipe preserved); both variants of the source instead store `"ab"` — the
index.ts variant removes the first `|` wherever it occurs, the part_002
variant removes every `|`. -/
theorem parse_key_pipes_cex :
    parseTemplateV1 "\x7b\x7bItem\na|b=v\n\x7d\x7d".data
        = some [(['a', 'b'], ['v'])] ∧
      parseTemplateV2 "\x7b\x7bItem\na|b=v\n\x7d\x7d".data
        = some [(['a', 'b'], ['v'])] ∧
      (['a', 'b'] : Str) ≠ ['a', '|', 'b'] := by
  exact ⟨by decide, by decide, by decide⟩

/-- C3 (amended): for a template line containing `"="`, the stored key is
the portion before the first `"="` with pipe characters removed — the
first occurrence in the index.ts variant, every occurrence in the part_002
variant — then whitespace-trimmed; pipes are not preserved.  When the key
portion contains at most one pipe (the `|field = value` shape the parser
expects), both variants agree and the stored key is the portion with its
pipe deleted and trimmed, and the key maps to the line's value. -/
theorem parse_key_pipes (st : PState) (line : Str)
    (h1 : containsC '=' line = true)
    (h2 : (splitOnC '=' line).headI.count '|' ≤ 1)
    (h3 : trimL ((splitOnC '=' line).headI.filter (fun c => c != '|')) ≠ []) :
    (stepP keyV1 st line).currentKey
        = trimL ((splitOnC '=' line).headI.filter (fun c => c != '|')) ∧
      (stepP keyV2 st line).currentKey
        = trimL ((splitOnC '=' line).headI.filter (fun c => c != '|')) ∧
      lookupA (stepP keyV1 st line).result
          (trimL ((splitOnC '=' line).headI.filter (fun c => c != '|')))
        = some (trimL (joinC '=' (splitOnC '=' line).tail)) ∧
      lookupA (stepP keyV2 st line).result
          (trimL ((splitOnC '=' line).headI.filter (fun c => c != '|')))
        = some (trimL (joinC '=' (splitOnC '=' line).tail)) := by
  have hk1 : keyV1 (splitOnC '=' line).headI
      = trimL ((splitOnC '=' line).headI.filter (fun c => c != '|')) := by
    rw [keyV1, removeFirstC_eq_filter h2]
  have hk2 : keyV2 (splitOnC '=' line).headI
      = trimL ((splitOnC '=' line).headI.filter (fun c => c != '|')) := rfl
  have hs1 := stepP_eq_of_key keyV1 st line h1 (by rw [hk1]; exact h3)
  have hs2 := stepP_eq_of_key keyV2 st line h1 (by rw [hk2]; exact h3)
  rw [hs1, hs2, hk1, hk2]
  exact ⟨rfl, rfl, lookupA_updA _ _ _, lookupA_updA _ _ _⟩

/-- Witness for `parse_key_pipes` at the concrete line `"|power = 5"`. -/
theorem parse_key_pipes_w :
    containsC '=' "|power = 5".data = true ∧
      (splitOnC '=' "|power = 5".data).headI.count '|' ≤ 1 ∧
      trimL ((splitOnC '=' "|power = 5".data).headI.filter
        (fun c => c != '|')) ≠ [] ∧
      (stepP keyV1 ⟨[], []⟩ "|power = 5".data).currentKey
        = trimL ((splitOnC '=' "|power = 5".data).headI.filter
            (fun c => c != '|')) :=
  ⟨by decide, by decide, by decide,
    (parse_key_pipes ⟨[], []⟩ "|power = 5".data
      (by decide) (by decide) (by decide)).1⟩

/-- C5: a field value containing literal `"="` characters round-trips
intact: the line is split on every `"="` and the segments after the first
are rejoined with `"="` (`parts.slice(1).join("=")`), so the stored value
equals the trimmed remainder of the line after its first `"="` — not the
truncation at the first `"="`.  `kf` ranges over both variants' key
extractions. -/
theorem parse_value_untruncated (kf : Str → Str) (st : PState) (line : Str)
    (h1 : containsC '=' line = true)
    (hk : kf (splitOnC '=' line).headI ≠ []) :
    lookupA (stepP kf st line).result (kf (splitOnC '=' line).headI)
      = some (trimL (afterFirstC '=' line)) := by
  rw [stepP_eq_of_key kf st line h1 hk]
  have hmem : '=' ∈ line := (containsC_true_iff '=' line).mp h1
  rw [afterFirstC_eq_join hmem]
  exact lookupA_updA _ _ _

/-- Witness for `parse_value_untruncated` at the line `"|stat = a=b"`,
whose value contains a literal `"="`. -/
theorem parse_value_untruncated_w :
    containsC '=' "|stat = a=b".data = true ∧
      keyV2 (splitOnC '=' "|stat = a=b".data).headI ≠ [] ∧
      lookupA (stepP keyV2 ⟨[], []⟩ "|stat = a=b".data).result
          (keyV2 (splitOnC '=' "|stat = a=b".data).headI)
        = some (trimL (afterFirstC '=' "|stat = a=b".data)) :=
  ⟨by decide, by decide,
    parse_value_untruncated keyV2 ⟨[], []⟩ "|stat = a=b".data
      (by decide) (by decide)⟩

/-- C4 counterexample: on a page whose heading-style marker occurs at
index 0 and whose template-style marker occurs only at index 29, the
source starts its scan at index 29 — the template marker's position —
not at the earliest occurrence of any recognized marker (index 0). -/
theorem extract_start_priority_cex :
    codeStartIdx
        "==recommended support gems==\n\x7b\x7brecommended support gems\n\x7d\x7d".data
      = some 29 ∧
    earliestStart
        "==recommended support gems==\n\x7b\x7brecommended support gems\n\x7d\x7d".data
      = some 0 ∧
    (29 : Nat) ≠ 0 := by
  exact ⟨by decide, by decide, by decide⟩

/-- C4 (amended): `extractSupports` starts its scan at the first
occurrence (case-insensitive) of the template-style marker, and only when
that marker is absent at the first occurrence of the heading-style marker;
this coincides with the earliest occurrence of any recognized marker
except when both occur and the heading-style one occurs strictly first.
When neither marker occurs it returns the empty collection. -/
theorem extract_start_priority (c : Str)
    (h : ∀ i j, indexOfL tmplMarker (lowerL c) = some i →
      indexOfL headMarker (lowerL c) = some j → i ≤ j) :
    codeStartIdx c = earliestStart c ∧
      (codeStartIdx c = none → extractSupports c = []) := by
  constructor
  · unfold codeStartIdx earliestStart
    cases ht : indexOfL tmplMarker (lowerL c) with
    | some i =>
      cases hh : indexOfL headMarker (lowerL c) with
      | some j =>
        have hij := h i j ht hh
        simp [Nat.min_eq_left hij]
      | none => rfl
    | none =>
      cases hh : indexOfL headMarker (lowerL c) <;> rfl
  · intro h0
    unfold extractSupports
    rw [h0]

/-- Witness for `extract_start_priority` at a page containing only the
template-style marker. -/
theorem extract_start_priority_w :
    codeStartIdx "\x7b\x7bRecommended Support Gems\n\x7d\x7d".data
        = earliestStart "\x7b\x7bRecommended Support Gems\n\x7d\x7d".data ∧
      (codeStartIdx "\x7b\x7bRecommended Support Gems\n\x7d\x7d".data = none →
        extractSupports "\x7b\x7bRecommended Support Gems\n\x7d\x7d".data = []) :=
  extract_start_priority "\x7b\x7bRecommended Support Gems\n\x7d\x7d".data
    (by
      intro i j _ hj
      rw [(by decide : indexOfL headMarker
        (lowerL "\x7b\x7bRecommended Support Gems\n\x7d\x7d".data) = none)] at hj
      exact Option.noConfusion hj)

/-- C6: `extractSupports` never returns duplicate names (deduplication is
by exact, case-sensitive list equality) and returns them in order of first
appearance — its name list is exactly the order-preserving first-occurrence
deduplication of the raw capture stream — and on the empty (hence
marker-less) input it returns the empty collection, as it does whenever
`codeStartIdx` finds no marker (then `rawSupportNames` is empty and so is
the result). -/
theorem extract_supports_dedup (c : Str) :
    ((extractSupports c).map SupportRef.name).Nodup ∧
      (extractSupports c).map SupportRef.name
        = dedupFirst (rawSupportNames c) ∧
      extractSupports [] = [] := by
  have key : (extractSupports c).map SupportRef.name
      = dedupFirst (rawSupportNames c) := by
    unfold extractSupports rawSupportNames
    cases h : codeStartIdx c with
    | none => rfl
    | some i =>
      rw [List.map_map]
      have hcomp : (SupportRef.name ∘ fun n =>
          { name := n, description := rsgDesc : SupportRef }) = id := rfl
      rw [hcomp, List.map_id, collectGems_foldl]
      rfl
  refine ⟨?_, key, by decide⟩
  rw [key]
  exact foldl_insertNew_nodup _ _ List.nodup_nil

/-- C7: the parser's line loop processes lines sequentially and stops at
the first line equal to `"}}"` after trimming — it computes the fold of
the per-line step over exactly the prefix of lines before the first such
line — and when no such line exists it processes every line to the end of
input and still returns the accumulated state (no error value exists). -/
theorem parse_lines_terminator (kf : Str → Str) (lines : List Str)
    (st : PState) :
    parseLinesGo kf lines st =
        List.foldl (stepP kf) st
          (lines.takeWhile (fun l => !(trimL l == closingBB))) ∧
      ((∀ l ∈ lines, trimL l ≠ closingBB) →
        parseLinesGo kf lines st = List.foldl (stepP kf) st lines) := by
  refine ⟨parseLinesGo_foldl kf lines st, ?_⟩
  intro hall
  rw [parseLinesGo_foldl]
  congr 1
  rw [List.takeWhile_eq_self_iff]
  intro l hl
  simp [hall l hl]

/-- Witness for `parse_lines_terminator` on a concrete unterminated
template (no closing `"}}"` line). -/
theorem parse_lines_terminator_w :
    parseLinesGo keyV2 ["|a = 1".data, "plain".data] ⟨[], []⟩ =
        List.foldl (stepP keyV2) ⟨[], []⟩
          ((["|a = 1".data, "plain".data]).takeWhile
            (fun l => !(trimL l == closingBB))) ∧
      parseLinesGo keyV2 ["|a = 1".data, "plain".data] ⟨[], []⟩ =
        List.foldl (stepP keyV2) ⟨[], []⟩ ["|a = 1".data, "plain".data] :=
  ⟨(parse_lines_terminator keyV2 ["|a = 1".data, "plain".data] ⟨[], []⟩).1,
    (parse_lines_terminator keyV2 ["|a = 1".data, "plain".data] ⟨[], []⟩).2
      (by decide)⟩

/-- C9: the four-step cleaning pipeline is idempotent on every input whose
cleaned form contains no residual instance of any of the four patterns —
the precise content of the specification's "free of pathological nesting"
proviso (well-nested input leaves no residual; pathological nesting can,
and then a second pass may rewrite further). -/
theorem clean_stats_idem (x : Str)
    (h : noResidual (cleanStats x) = true) :
    cleanStats (cleanStats x) = cleanStats x := by
  have hsplit : hasMatchIn matchColor (cleanStats x) = false ∧
      hasMatchIn matchLink (cleanStats x) = false ∧
      hasMatchIn matchTag (cleanStats x) = false ∧
      hasMatchIn matchNbsp (cleanStats x) = false := by
    rw [noResidual] at h
    simp only [Bool.not_eq_true', Bool.or_eq_false_iff] at h
    exact ⟨h.1.1.1, h.1.1.2, h.1.2, h.2⟩
  obtain ⟨h1, h2, h3, h4⟩ := hsplit
  have e1 : replaceColor (cleanStats x) = cleanStats x := by
    rw [replaceColor]
    exact runRep_eq_self h1 _
  have e2 : replaceLinks (cleanStats x) = cleanStats x := by
    rw [replaceLinks]
    exact runRep_eq_self h2 _
  have e3 : replaceTags (cleanStats x) = cleanStats x := by
    rw [replaceTags]
    exact runRep_eq_self h3 _
  have e4 : replaceNbsp (cleanStats x) = cleanStats x := by
    rw [replaceNbsp]
    exact runRep_eq_self h4 _
  show replaceNbsp (replaceTags (replaceLinks (replaceColor (cleanStats x))))
    = cleanStats x
  rw [e1, e2, e3, e4]

/-- Witness for `clean_stats_idem` at a stat text exercising all four
patterns. -/
theorem clean_stats_idem_w :
    noResidual (cleanStats
        "\x7b\x7bc|gem|Impact\x7d\x7d rad <br> [[L|T]]&nbsp;z".data) = true ∧
      cleanStats (cleanStats
          "\x7b\x7bc|gem|Impact\x7d\x7d rad <br> [[L|T]]&nbsp;z".data)
        = cleanStats "\x7b\x7bc|gem|Impact\x7d\x7d rad <br> [[L|T]]&nbsp;z".data :=
  ⟨by decide,
    clean_stats_idem "\x7b\x7bc|gem|Impact\x7d\x7d rad <br> [[L|T]]&nbsp;z".data
      (by decide)⟩

/-- C10: every `SupportRef` returned by `extractSupports` has a non-empty
name equal to its own trimmed form, containing no `|`, no `}` and no
newline, and its description is exactly the constant
`"Recommended Support Gem"`. -/
theorem extract_supports_shape (c : Str) (r : SupportRef)
    (h : r ∈ extractSupports c) :
    r.name ≠ [] ∧ trimL r.name = r.name ∧ '|' ∉ r.name ∧ '}' ∉ r.name ∧
      '\n' ∉ r.name ∧ r.description = rsgDesc := by
  unfold extractSupports at h
  cases hidx : codeStartIdx c with
  | none =>
    rw [hidx] at h
    simp at h
  | some i =>
    rw [hidx] at h
    obtain ⟨n, hn, hr⟩ := List.mem_map.mp h
    subst hr
    rw [collectGems_foldl] at hn
    rcases mem_foldl_insertNew _ _ _ hn with h0 | h0
    · simp at h0
    · obtain ⟨l, hl, hnl⟩ := mem_rawGems h0
      obtain ⟨hne, x, hx, hnx⟩ := mem_lineNames hnl
      obtain ⟨hxne, hch⟩ := ilScanF_props l.length l hx
      refine ⟨hne, ?_, ?_, ?_, ?_, rfl⟩
      · show trimL n = n
        rw [hnx, trimL_idem]
      · intro hmem
        have hmx : '|' ∈ x := mem_trimL (hnx ▸ hmem)
        have := (hch '|' hmx).1
        simp [ilNameChar] at this
      · intro hmem
        have hmx : '}' ∈ x := mem_trimL (hnx ▸ hmem)
        have := (hch '}' hmx).1
        simp [ilNameChar] at this
      · intro hmem
        have hmx : '\n' ∈ x := mem_trimL (hnx ▸ hmem)
        have hml : '\n' ∈ l := (hch '\n' hmx).2
        exact mem_splitOnC_not_sep '\n' hl hml

/-- Witness for `extract_supports_shape` at a concrete page with one
recommended support. -/
theorem extract_supports_shape_w :
    (⟨"Maim".data, rsgDesc⟩ : SupportRef) ∈ extractSupports
        "\x7b\x7bRecommended Support Gems\n\x7b\x7bil|Maim\x7d\x7d\n\x7d\x7d".data ∧
      ((⟨"Maim".data, rsgDesc⟩ : SupportRef).name ≠ [] ∧
        trimL (⟨"Maim".data, rsgDesc⟩ : SupportRef).name
          = (⟨"Maim".data, rsgDesc⟩ : SupportRef).name ∧
        '|' ∉ (⟨"Maim".data, rsgDesc⟩ : SupportRef).name ∧
        '}' ∉ (⟨"Maim".data, rsgDesc⟩ : SupportRef).name ∧
        '\n' ∉ (⟨"Maim".data, rsgDesc⟩ : SupportRef).name ∧
        (⟨"Maim".data, rsgDesc⟩ : SupportRef).description = rsgDesc) :=
  ⟨by decide,
    extract_supports_shape
      "\x7b\x7bRecommended Support Gems\n\x7b\x7bil|Maim\x7d\x7d\n\x7d\x7d".data
      ⟨"Maim".data, rsgDesc⟩ (by decide)⟩
